import Mathlib

/-!
# Verification of the FKS static perfect-hash membership set (`FixedSet.cpp`)

Shallow embedding of the two-level perfect-hash table from
`src/shadFails/FixedSet.cpp`.  C++ `size_t` arithmetic is modelled as `Nat`
with explicit reduction modulo `2 ^ 64`; C++ `int` keys are modelled as `Int`,
with the implicit `int → size_t` conversion made explicit as reduction modulo
`2 ^ 64` (two's complement).  The process-wide pseudo-random hash source
(`HashFactory`) is modelled as an explicit list of hash functions consumed one
at a time; the unbounded retry loops of `FixedSet::Initialize` become
recursion on that list, returning `none` when the list is exhausted.  Thus
`build data hs = none` for every list `hs` means that no finite amount of
entropy completes the construction, i.e. the C++ build never terminates.
-/

namespace FixedSet

/-- `Hash::kPrimeNumber`. -/
def kPrimeNumber : Nat := 2000000011

/-- The modulus of C++ 64-bit `size_t` arithmetic. -/
def uintSize : Nat := 2 ^ 64

/-- `struct Hash`: a pair (multiplier, adder) of `size_t` parameters. -/
structure Hash where
  multiplier : Nat
  adder : Nat
deriving DecidableEq, Repr

/-- The C++ implicit conversion from `int` to `size_t`: reduction of the
(possibly negative) value modulo `2 ^ 64`. -/
def toSizeT (k : Int) : Nat := (k % (2 ^ 64 : Int)).toNat

/-- `Hash::operator()`: `(value * multiplier_value + adder_valuer) % kPrimeNumber`
computed in `size_t` arithmetic, so the product and sum wrap modulo `2 ^ 64`
before the reduction modulo the prime. -/
def hashApply (h : Hash) (value : Int) : Nat :=
  (toSizeT value * h.multiplier + h.adder) % uintSize % kPrimeNumber

/-- `FixedSet::CalcInnerPosition`: `hash_(value) % inner_data_size_`. -/
def calcInnerPosition (h : Hash) (size : Nat) (value : Int) : Nat :=
  hashApply h value % size

/-- The number of keys of `data` that `CalcDistribution` sends to basket `i`:
the final value of `baskets[i]` after the increment loop. -/
def bucketCount (h : Hash) (size : Nat) (data : List Int) (i : Nat) : Nat :=
  (data.filter (fun v => calcInnerPosition h size v == i)).length

/-- `FixedSet::CalcDistribution`: the vector `baskets` of per-position counts. -/
def calcDistribution (h : Hash) (size : Nat) (data : List Int) : List Nat :=
  (List.range size).map (bucketCount h size data)

/-- The write loop of `PerfectHashFirstLevelHashTable::TryFillingHashTable`:
`inner_data_[CalcInnerPosition(value)] = value` for each value in order. -/
def writeAll (h : Hash) (size : Nat) (data : List Int) (buf : List (Option Int)) :
    List (Option Int) :=
  data.foldl (fun b v => b.set (calcInnerPosition h size v) (some v)) buf

/-- `PerfectHashFirstLevelHashTable::TryFillingHashTable`: compute the
distribution; if any count exceeds 1, return `false` leaving `inner_data_`
untouched; otherwise store every key at its position and return `true`.
The result pairs the returned `bool` with the state of `inner_data_`. -/
def innerTryFill (h : Hash) (size : Nat) (data : List Int) (buf : List (Option Int)) :
    Bool × List (Option Int) :=
  if (calcDistribution h size data).all (fun num => num ≤ 1) then
    (true, writeAll h size data buf)
  else
    (false, buf)

/-- `PerfectHashFirstLevelHashTable` after initialization: `inner_data_size_`,
`inner_data_` (a buffer of `Optional<T>` slots) and the accepted `hash_`. -/
structure InnerTable where
  size : Nat
  buf : List (Option Int)
  hash : Hash
deriving DecidableEq, Repr

instance : Inhabited InnerTable := ⟨⟨0, [], ⟨0, 0⟩⟩⟩

/-- The retry loop of `FixedSet::Initialize` at the first level: draw hash
functions from the stream until `TryFillingHashTable` succeeds, threading the
buffer state through failed attempts. Returns the accepted hash, the filled
buffer and the unconsumed remainder of the stream, or `none` if the stream is
exhausted (the C++ loop would still be running). -/
def innerLoop (size : Nat) (data : List Int) (buf : List (Option Int)) :
    List Hash → Option (Hash × List (Option Int) × List Hash)
  | [] => none
  | h :: rest =>
    if (innerTryFill h size data buf).1 then
      some (h, (innerTryFill h size data buf).2, rest)
    else
      innerLoop size data (innerTryFill h size data buf).2 rest

/-- `FixedSet::Initialize` for a `PerfectHashFirstLevelHashTable` over the
bucket `data`: `InitBufferAndSize` sets `inner_data_size_ = size * size` and
resizes the buffer (fresh slots are unassigned), then the retry loop runs. -/
def innerInitialize (data : List Int) (hs : List Hash) :
    Option (InnerTable × List Hash) :=
  match innerLoop (data.length * data.length) data
      (List.replicate (data.length * data.length) none) hs with
  | none => none
  | some (h, buf, rest) => some (⟨data.length * data.length, buf, h⟩, rest)

/-- `FixedSet::Contains` for a first-level table: `false` when
`inner_data_size_ == 0`, otherwise `HasKey`: the slot at the key's position is
assigned and stores an equal value. -/
def innerContains (t : InnerTable) (value : Int) : Bool :=
  if t.size = 0 then
    false
  else
    match t.buf[calcInnerPosition t.hash t.size value]? with
    | some (some k) => k == value
    | _ => false

/-- `kMemoryRepletionRatio`. -/
def kMemoryRepletionRatio : Nat := 4

/-- `sum_size`: the sum of the squares of the distribution entries. -/
def sumSize (distribution : List Nat) : Nat :=
  (distribution.map (fun number => number * number)).sum

/-- The basket-building loop of `PerfectHashTable::TryFillingHashTable`:
basket `i` receives, in input order, the keys whose outer position is `i`. -/
def makeBaskets (h : Hash) (size : Nat) (data : List Int) : List (List Int) :=
  (List.range size).map (fun i => data.filter (fun v => calcInnerPosition h size v == i))

/-- The loop `hashTable_[i].Initialize(baskets[i])`: initialize every inner
table in order, threading the hash stream. -/
def initInnerTables : List (List Int) → List Hash → Option (List InnerTable × List Hash)
  | [], hs => some ([], hs)
  | d :: ds, hs =>
    match innerInitialize d hs with
    | none => none
    | some (t, hs2) =>
      match initInnerTables ds hs2 with
      | none => none
      | some (ts, hs3) => some (t :: ts, hs3)

/-- `PerfectHashTable::TryFillingHashTable` with hash `h` already drawn:
if `sum_size > kMemoryRepletionRatio * hashTable_.size()` return `false`
without touching `hashTable_`; otherwise distribute the keys into baskets and
initialize every inner table (consuming hashes from the stream), returning
`true`.  `none` means the stream was exhausted inside an inner retry loop. -/
def outerTryFill (h : Hash) (size : Nat) (data : List Int) (tables : List InnerTable)
    (hs : List Hash) : Option (Bool × List InnerTable × List Hash) :=
  if kMemoryRepletionRatio * size < sumSize (calcDistribution h size data) then
    some (false, tables, hs)
  else
    match initInnerTables (makeBaskets h size data) hs with
    | none => none
    | some (ts, rest) => some (true, ts, rest)

/-- The retry loop of `FixedSet::Initialize` at the top level: a rejected
attempt leaves `hashTable_` untouched (see `outerTryFill`), so the loop
retries on the same `tables` with the rest of the stream. -/
def outerLoop (size : Nat) (data : List Int) (tables : List InnerTable) :
    List Hash → Option (Hash × List InnerTable)
  | [] => none
  | h :: rest =>
    if kMemoryRepletionRatio * size < sumSize (calcDistribution h size data) then
      outerLoop size data tables rest
    else
      match initInnerTables (makeBaskets h size data) rest with
      | none => none
      | some (ts, _) => some (h, ts)

/-- `PerfectHashTable` after initialization: `inner_data_size_`, the accepted
outer `hash_` and the vector `hashTable_` of inner tables. -/
structure OuterTable where
  size : Nat
  hash : Hash
  tables : List InnerTable
deriving DecidableEq, Repr

/-- `FixedSet::Initialize` for a `PerfectHashTable`: `InitBufferAndSize` sets
`inner_data_size_ = data.size()` and resizes `hashTable_` to as many
default-constructed inner tables, then the retry loop runs on the stream. -/
def build (data : List Int) (hs : List Hash) : Option OuterTable :=
  match outerLoop data.length data (List.replicate data.length default) hs with
  | none => none
  | some (h, ts) => some ⟨data.length, h, ts⟩

/-- `FixedSet::Contains` for the outer table: `false` when
`inner_data_size_ == 0`, otherwise `PerfectHashTable::HasKey`: delegate to the
inner table at the key's outer position. -/
def contains (t : OuterTable) (value : Int) : Bool :=
  if t.size = 0 then
    false
  else
    match t.tables[calcInnerPosition t.hash t.size value]? with
    | some it => innerContains it value
    | none => false

/-- The mathematical hash of the specification:
`(key * multiplier + adder) mod prime` over the integers, no overflow. -/
def specHashApply (h : Hash) (value : Int) : Nat :=
  ((value * (h.multiplier : Int) + (h.adder : Int)) % (kPrimeNumber : Int)).toNat

/-- The (outer bucket, inner slot) pair `(b, s)` of the built structure holds
the key `k`: bucket `b` exists and slot `s` of its inner table stores `k`. -/
def slotHolds (st : OuterTable) (b s : Nat) (k : Int) : Prop :=
  ∃ t, st.tables[b]? = some t ∧ t.buf[s]? = some (some k)

/-! ## Counting and distribution lemmas -/

theorem bucketCount_eq_count (h : Hash) (size : Nat) (data : List Int) (i : Nat) :
    bucketCount h size data i = (data.map (calcInnerPosition h size)).count i := by
  rw [List.count_eq_countP, List.countP_map, bucketCount, List.countP_eq_length_filter]
  rfl

theorem distribution_all_iff (h : Hash) (size : Nat) (data : List Int) :
    ((calcDistribution h size data).all (fun num => num ≤ 1) = true) ↔
      ∀ i < size, bucketCount h size data i ≤ 1 := by
  simp [calcDistribution, List.all_eq_true]

theorem counts_iff_nodup (h : Hash) (size : Nat) (data : List Int)
    (hpos : ∀ v ∈ data, calcInnerPosition h size v < size) :
    (∀ i < size, bucketCount h size data i ≤ 1) ↔
      (data.map (calcInnerPosition h size)).Nodup := by
  rw [List.nodup_iff_count_le_one]
  constructor
  · intro hle a
    by_cases ha : a < size
    · rw [← bucketCount_eq_count]
      exact hle a ha
    · have : a ∉ data.map (calcInnerPosition h size) := by
        intro hmem
        obtain ⟨v, hv, rfl⟩ := List.mem_map.mp hmem
        exact ha (hpos v hv)
      simp [List.count_eq_zero.mpr this]
  · intro hle i _
    rw [bucketCount_eq_count]
    exact hle i

/-! ## Write-loop lemmas -/

theorem writeAll_cons (h : Hash) (size : Nat) (v : Int) (data : List Int)
    (buf : List (Option Int)) :
    writeAll h size (v :: data) buf =
      writeAll h size data (buf.set (calcInnerPosition h size v) (some v)) := rfl

theorem writeAll_length (h : Hash) (size : Nat) (data : List Int)
    (buf : List (Option Int)) :
    (writeAll h size data buf).length = buf.length := by
  induction data generalizing buf with
  | nil => rfl
  | cons v data ih => rw [writeAll_cons, ih, List.length_set]

theorem writeAll_getElem?_of_forall_ne (h : Hash) (size : Nat) (data : List Int)
    (buf : List (Option Int)) (i : Nat)
    (hne : ∀ v ∈ data, calcInnerPosition h size v ≠ i) :
    (writeAll h size data buf)[i]? = buf[i]? := by
  induction data generalizing buf with
  | nil => rfl
  | cons v data ih =>
    rw [writeAll_cons, ih _ (fun w hw => hne w (List.mem_cons_of_mem _ hw)),
      List.getElem?_set_ne (hne v (List.mem_cons_self _ _))]

theorem writeAll_getElem?_cases (h : Hash) (size : Nat) (data : List Int)
    (buf : List (Option Int)) (i : Nat) :
    (writeAll h size data buf)[i]? = buf[i]? ∨
      ∃ k, k ∈ data ∧ calcInnerPosition h size k = i ∧
        (writeAll h size data buf)[i]? = some (some k) := by
  induction data generalizing buf with
  | nil => exact Or.inl rfl
  | cons v data ih =>
    rw [writeAll_cons]
    rcases ih (buf.set (calcInnerPosition h size v) (some v)) with hcase | ⟨k, hk, hki, hlook⟩
    · by_cases hv : calcInnerPosition h size v = i
      · by_cases hlt : i < buf.length
        · refine Or.inr ⟨v, List.mem_cons_self _ _, hv, ?_⟩
          rw [hcase, hv, List.getElem?_set_self hlt]
        · refine Or.inl ?_
          rw [hcase, hv, List.set_eq_of_length_le (Nat.le_of_not_lt (hv ▸ hlt))]
      · exact Or.inl (by rw [hcase, List.getElem?_set_ne hv])
    · exact Or.inr ⟨k, List.mem_cons_of_mem _ hk, hki, hlook⟩

theorem writeAll_getElem?_of_mem (h : Hash) (size : Nat) (data : List Int)
    (buf : List (Option Int)) (v : Int)
    (hnd : (data.map (calcInnerPosition h size)).Nodup) (hv : v ∈ data)
    (hlt : calcInnerPosition h size v < buf.length) :
    (writeAll h size data buf)[calcInnerPosition h size v]? = some (some v) := by
  induction data generalizing buf with
  | nil => cases hv
  | cons w data ih =>
    rw [writeAll_cons]
    rw [List.map_cons, List.nodup_cons] at hnd
    by_cases hvd : v ∈ data
    · exact ih _ hnd.2 hvd (by rw [List.length_set]; exact hlt)
    · have hvw : v = w := by
        rcases List.mem_cons.mp hv with h' | h'
        · exact h'
        · exact absurd h' hvd
      subst hvw
      rw [writeAll_getElem?_of_forall_ne]
      · exact List.getElem?_set_self hlt
      · intro u hu he
        exact hnd.1 (he ▸ List.mem_map_of_mem (calcInnerPosition h size) hu)

/-! ## Inner fill attempt and inner retry loop -/

theorem innerTryFill_fst (h : Hash) (size : Nat) (data : List Int)
    (buf : List (Option Int)) :
    (innerTryFill h size data buf).1 =
      (calcDistribution h size data).all (fun num => num ≤ 1) := by
  unfold innerTryFill
  split <;> simp_all

theorem innerTryFill_snd_of_true (h : Hash) (size : Nat) (data : List Int)
    (buf : List (Option Int)) (ht : (innerTryFill h size data buf).1 = true) :
    (innerTryFill h size data buf).2 = writeAll h size data buf := by
  unfold innerTryFill at ht ⊢
  split at ht
  · rename_i hc
    rw [if_pos hc]
  · simp at ht

theorem innerTryFill_snd_of_false (h : Hash) (size : Nat) (data : List Int)
    (buf : List (Option Int)) (ht : (innerTryFill h size data buf).1 = false) :
    (innerTryFill h size data buf).2 = buf := by
  unfold innerTryFill at ht ⊢
  split at ht
  · simp at ht
  · rename_i hc
    rw [if_neg hc]

theorem innerLoop_some (size : Nat) (data : List Int) (hs : List Hash) :
    ∀ (buf : List (Option Int)) (hh : Hash) (buf2 : List (Option Int)) (rest : List Hash),
      innerLoop size data buf hs = some (hh, buf2, rest) →
      (innerTryFill hh size data buf).1 = true ∧ buf2 = writeAll hh size data buf := by
  induction hs with
  | nil => intro buf hh buf2 rest heq; cases heq
  | cons h hs ih =>
    intro buf hh buf2 rest heq
    rw [innerLoop] at heq
    by_cases hb : (innerTryFill h size data buf).1 = true
    · rw [if_pos hb] at heq
      obtain ⟨rfl, rfl, rfl⟩ : h = hh ∧ (innerTryFill h size data buf).2 = buf2 ∧ hs = rest := by
        simpa using heq
      exact ⟨hb, innerTryFill_snd_of_true h size data buf hb⟩
    · rw [if_neg hb] at heq
      rw [innerTryFill_snd_of_false h size data buf (Bool.not_eq_true _ ▸ hb)] at heq
      exact ih buf hh buf2 rest heq

theorem innerInitialize_spec (data : List Int) (hs : List Hash) (t : InnerTable)
    (rest : List Hash) (hinit : innerInitialize data hs = some (t, rest)) :
    t.size = data.length * data.length ∧
    (innerTryFill t.hash t.size data (List.replicate t.size none)).1 = true ∧
    t.buf = writeAll t.hash t.size data (List.replicate t.size none) := by
  unfold innerInitialize at hinit
  cases hloop : innerLoop (data.length * data.length) data
      (List.replicate (data.length * data.length) none) hs with
  | none => rw [hloop] at hinit; cases hinit
  | some r =>
    obtain ⟨hh, buf, rest'⟩ := r
    rw [hloop] at hinit
    obtain ⟨rfl, rfl⟩ : t = ⟨data.length * data.length, buf, hh⟩ ∧ rest = rest' := by
      constructor <;> · injection hinit with h1; cases h1; rfl
    obtain ⟨h1, h2⟩ := innerLoop_some _ _ _ _ _ _ _ hloop
    exact ⟨rfl, h1, h2⟩

/-! ## Membership correctness for an initialized inner table -/

theorem innerInitialize_nodup_positions (data : List Int) (hs : List Hash) (t : InnerTable)
    (rest : List Hash) (hinit : innerInitialize data hs = some (t, rest))
    (hpos0 : 0 < t.size) :
    (data.map (calcInnerPosition t.hash t.size)).Nodup := by
  obtain ⟨hsize, hfill, hbuf⟩ := innerInitialize_spec data hs t rest hinit
  rw [← counts_iff_nodup t.hash t.size data
    (fun v _ => Nat.mod_lt _ hpos0), ← distribution_all_iff]
  rw [innerTryFill_fst] at hfill
  exact hfill

theorem innerInitialize_buf_length (data : List Int) (hs : List Hash) (t : InnerTable)
    (rest : List Hash) (hinit : innerInitialize data hs = some (t, rest)) :
    t.buf.length = t.size := by
  obtain ⟨hsize, hfill, hbuf⟩ := innerInitialize_spec data hs t rest hinit
  rw [hbuf, writeAll_length, List.length_replicate]

theorem innerInitialize_mem_slot (data : List Int) (hs : List Hash) (t : InnerTable)
    (rest : List Hash) (hinit : innerInitialize data hs = some (t, rest)) (k : Int)
    (hk : k ∈ data) :
    t.buf[calcInnerPosition t.hash t.size k]? = some (some k) := by
  obtain ⟨hsize, hfill, hbuf⟩ := innerInitialize_spec data hs t rest hinit
  have hpos0 : 0 < t.size := by
    rw [hsize]
    have : 0 < data.length := List.length_pos.mpr (List.ne_nil_of_mem hk)
    exact Nat.mul_pos this this
  rw [hbuf]
  exact writeAll_getElem?_of_mem t.hash t.size data _ k
    (innerInitialize_nodup_positions data hs t rest hinit hpos0) hk
    (by rw [List.length_replicate]; exact Nat.mod_lt _ hpos0)

theorem innerInitialize_occupied (data : List Int) (hs : List Hash) (t : InnerTable)
    (rest : List Hash) (hinit : innerInitialize data hs = some (t, rest)) (s : Nat) (k : Int)
    (hocc : t.buf[s]? = some (some k)) :
    k ∈ data ∧ calcInnerPosition t.hash t.size k = s := by
  obtain ⟨hsize, hfill, hbuf⟩ := innerInitialize_spec data hs t rest hinit
  rw [hbuf] at hocc
  rcases writeAll_getElem?_cases t.hash t.size data (List.replicate t.size none) s with
    hc | ⟨k', hk', hki, hlook⟩
  · rw [hc, List.getElem?_replicate] at hocc
    split at hocc <;> simp at hocc
  · rw [hlook] at hocc
    obtain rfl : k' = k := by simpa using hocc
    exact ⟨hk', hki⟩

theorem innerContains_eq_mem (data : List Int) (hs : List Hash) (t : InnerTable)
    (rest : List Hash) (hinit : innerInitialize data hs = some (t, rest)) (v : Int) :
    innerContains t v = decide (v ∈ data) := by
  obtain ⟨hsize, hfill, hbuf⟩ := innerInitialize_spec data hs t rest hinit
  by_cases hm : data.length = 0
  · have hd : data = [] := List.length_eq_zero.mp hm
    subst hd
    have ht0 : t.size = 0 := by rw [hsize, hm]
    simp [innerContains, ht0]
  · have hpos0 : 0 < t.size := by
      rw [hsize]
      exact Nat.mul_pos (Nat.pos_of_ne_zero hm) (Nat.pos_of_ne_zero hm)
    unfold innerContains
    rw [if_neg (Nat.pos_iff_ne_zero.mp hpos0)]
    by_cases hv : v ∈ data
    · rw [innerInitialize_mem_slot data hs t rest hinit v hv]
      simp [hv]
    · rcases writeAll_getElem?_cases t.hash t.size data (List.replicate t.size none)
          (calcInnerPosition t.hash t.size v) with hc | ⟨k, hk, hki, hlook⟩
      · have hrep : (List.replicate t.size (none : Option Int))[calcInnerPosition
            t.hash t.size v]? = some none :=
          List.getElem?_replicate_of_lt (Nat.mod_lt _ hpos0)
        rw [hbuf, hc, hrep]
        simp [hv]
      · rw [hbuf, hlook]
        have hkv : k ≠ v := fun he => hv (he ▸ hk)
        simp [hkv, hv]

/-! ## Outer-level lemmas -/

theorem makeBaskets_length (h : Hash) (n : Nat) (data : List Int) :
    (makeBaskets h n data).length = n := by
  simp [makeBaskets]

theorem makeBaskets_getElem? (h : Hash) (n : Nat) (data : List Int) (i : Nat) (hi : i < n) :
    (makeBaskets h n data)[i]? =
      some (data.filter (fun v => calcInnerPosition h n v == i)) := by
  simp [makeBaskets, List.getElem?_range hi]

theorem mem_basket_iff (h : Hash) (n : Nat) (data : List Int) (i : Nat) (v : Int) :
    (v ∈ data.filter (fun u => calcInnerPosition h n u == i)) ↔
      v ∈ data ∧ calcInnerPosition h n v = i := by
  simp [List.mem_filter]

theorem initInnerTables_spec (ds : List (List Int)) :
    ∀ (hs : List Hash) (ts : List InnerTable) (rest : List Hash),
      initInnerTables ds hs = some (ts, rest) →
      ts.length = ds.length ∧
      ∀ (i : Nat) (d : List Int) (t : InnerTable), ds[i]? = some d → ts[i]? = some t →
        ∃ hs1 rest1, innerInitialize d hs1 = some (t, rest1) := by
  induction ds with
  | nil =>
    intro hs ts rest heq
    rw [initInnerTables] at heq
    injection heq with h
    injection h with h1 h2
    subst h1
    exact ⟨rfl, fun i d t hd ht => by simp at hd⟩
  | cons d ds ih =>
    intro hs ts rest heq
    rw [initInnerTables] at heq
    cases hin : innerInitialize d hs with
    | none => simp [hin] at heq
    | some r =>
      obtain ⟨t0, hs2⟩ := r
      simp only [hin] at heq
      cases hrec : initInnerTables ds hs2 with
      | none => simp [hrec] at heq
      | some r2 =>
        obtain ⟨ts', hs3⟩ := r2
        simp only [hrec] at heq
        injection heq with h
        injection h with h1 h2
        subst h1; subst h2
        obtain ⟨hlen, hall⟩ := ih hs2 ts' hs3 hrec
        refine ⟨by simp [hlen], ?_⟩
        intro i dd tt hd ht
        cases i with
        | zero =>
          obtain rfl : dd = d := by simpa using hd.symm
          obtain rfl : tt = t0 := by simpa using ht.symm
          exact ⟨hs, hs2, hin⟩
        | succ i => exact hall i dd tt (by simpa using hd) (by simpa using ht)

theorem outerLoop_spec (n : Nat) (data : List Int) (hs : List Hash) :
    ∀ (tables : List InnerTable) (hh : Hash) (ts : List InnerTable),
      outerLoop n data tables hs = some (hh, ts) →
      sumSize (calcDistribution hh n data) ≤ kMemoryRepletionRatio * n ∧
      ∃ hs1 rest1, initInnerTables (makeBaskets hh n data) hs1 = some (ts, rest1) := by
  induction hs with
  | nil => intro tables hh ts heq; cases heq
  | cons h hs ih =>
    intro tables hh ts heq
    rw [outerLoop] at heq
    by_cases hcond : kMemoryRepletionRatio * n < sumSize (calcDistribution h n data)
    · rw [if_pos hcond] at heq
      exact ih tables hh ts heq
    · rw [if_neg hcond] at heq
      cases hii : initInnerTables (makeBaskets h n data) hs with
      | none => rw [hii] at heq; cases heq
      | some r =>
        obtain ⟨ts', rest'⟩ := r
        rw [hii] at heq
        obtain ⟨h1, h2⟩ : h = hh ∧ ts' = ts := by simpa using heq
        subst h1; subst h2
        exact ⟨Nat.le_of_not_lt hcond, hs, rest', hii⟩

theorem build_spec (data : List Int) (hs : List Hash) (st : OuterTable)
    (hb : build data hs = some st) :
    st.size = data.length ∧
    sumSize (calcDistribution st.hash st.size data) ≤
      kMemoryRepletionRatio * data.length ∧
    ∃ hs1 rest1,
      initInnerTables (makeBaskets st.hash st.size data) hs1 = some (st.tables, rest1) := by
  unfold build at hb
  cases hol : outerLoop data.length data (List.replicate data.length default) hs with
  | none => rw [hol] at hb; cases hb
  | some r =>
    obtain ⟨hh, ts⟩ := r
    rw [hol] at hb
    have h1 : (⟨data.length, hh, ts⟩ : OuterTable) = st := by
      injection hb
    subst h1
    obtain ⟨hsum, hinit⟩ := outerLoop_spec _ _ _ _ _ _ hol
    exact ⟨rfl, hsum, hinit⟩

theorem build_table_sizes (data : List Int) (hs : List Hash) (st : OuterTable)
    (hb : build data hs = some st) :
    st.tables.map (fun t => t.size) =
      (calcDistribution st.hash st.size data).map (fun c => c * c) := by
  obtain ⟨hsize, hsum, hs1, rest1, hinit⟩ := build_spec data hs st hb
  obtain ⟨hlen, hall⟩ := initInnerTables_spec _ _ _ _ hinit
  have htslen : st.tables.length = st.size := by rw [hlen, makeBaskets_length]
  apply List.ext_getElem?
  intro i
  by_cases hi : i < st.size
  · have hi1 : i < st.tables.length := by rw [htslen]; exact hi
    obtain ⟨t, htb⟩ : ∃ t, st.tables[i]? = some t := ⟨_, List.getElem?_eq_getElem hi1⟩
    obtain ⟨hs2, rest2, hinner⟩ := hall i _ t (makeBaskets_getElem? _ _ _ _ hi) htb
    obtain ⟨hsz, -, -⟩ := innerInitialize_spec _ _ _ _ hinner
    rw [List.getElem?_map, htb, calcDistribution, List.getElem?_map, List.getElem?_map,
      List.getElem?_range hi]
    simp only [Option.map_some']
    rw [hsz]
    rfl
  · have h1 : (st.tables.map (fun t => t.size))[i]? = none :=
      List.getElem?_eq_none (by simpa [htslen] using Nat.le_of_not_lt hi)
    have h2 : ((calcDistribution st.hash st.size data).map (fun c => c * c))[i]? = none :=
      List.getElem?_eq_none (by simp [calcDistribution, Nat.le_of_not_lt hi])
    rw [h1, h2]

/-! ## Divergence of the build on duplicated keys -/

theorem innerTryFill_of_dup (h : Hash) (size : Nat) (data : List Int)
    (buf : List (Option Int)) (hpos0 : 0 < size) (hdup : ¬ data.Nodup) :
    innerTryFill h size data buf = (false, buf) := by
  have hnd : ¬ (data.map (calcInnerPosition h size)).Nodup :=
    fun hc => hdup (hc.of_map _)
  have hfail : (innerTryFill h size data buf).1 = false := by
    rw [innerTryFill_fst]
    rw [← Bool.not_eq_true]
    intro hall
    exact hnd ((counts_iff_nodup h size data (fun v _ => Nat.mod_lt _ hpos0)).mp
      ((distribution_all_iff h size data).mp hall))
  have hsnd := innerTryFill_snd_of_false h size data buf hfail
  calc innerTryFill h size data buf
      = ((innerTryFill h size data buf).1, (innerTryFill h size data buf).2) := rfl
    _ = (false, buf) := by rw [hfail, hsnd]

theorem innerLoop_of_dup (data : List Int) (hdup : ¬ data.Nodup) (hs : List Hash) :
    ∀ buf, innerLoop (data.length * data.length) data buf hs = none := by
  have hlen2 : 2 ≤ data.length := by
    match data, hdup with
    | [], hdup => exact absurd List.nodup_nil hdup
    | [x], hdup => exact absurd (List.nodup_cons.mpr ⟨by simp, List.nodup_nil⟩) hdup
    | x :: y :: l, _ => simp
  have hpos0 : 0 < data.length * data.length :=
    Nat.mul_pos (Nat.lt_of_lt_of_le Nat.zero_lt_two hlen2)
      (Nat.lt_of_lt_of_le Nat.zero_lt_two hlen2)
  induction hs with
  | nil => intro buf; rfl
  | cons h hs ih =>
    intro buf
    rw [innerLoop, innerTryFill_of_dup h _ data buf hpos0 hdup]
    exact ih buf

theorem innerInitialize_of_dup (data : List Int) (hdup : ¬ data.Nodup) (hs : List Hash) :
    innerInitialize data hs = none := by
  rw [innerInitialize, innerLoop_of_dup data hdup hs]

theorem initInnerTables_of_dup (ds : List (List Int)) (d : List Int) (hd : d ∈ ds)
    (hdup : ¬ d.Nodup) : ∀ hs, initInnerTables ds hs = none := by
  induction ds with
  | nil => cases hd
  | cons d0 ds ih =>
    intro hs
    rw [initInnerTables]
    rcases List.mem_cons.mp hd with rfl | hmem
    · rw [innerInitialize_of_dup d hdup hs]
    · cases hin : innerInitialize d0 hs with
      | none => rfl
      | some r =>
        obtain ⟨t0, hs2⟩ := r
        simp [ih hmem hs2]

theorem five_five_not_nodup : ¬ ([5, 5] : List Int).Nodup := by
  decide

theorem five_basket_filter (h : Hash) :
    ([5, 5] : List Int).filter
        (fun v => calcInnerPosition h 2 v == calcInnerPosition h 2 5) = [5, 5] := by
  simp [List.filter]

theorem five_basket_mem (h : Hash) :
    ([5, 5] : List Int) ∈ makeBaskets h 2 [5, 5] := by
  rw [makeBaskets]
  refine List.mem_map.mpr ⟨calcInnerPosition h 2 5, ?_, five_basket_filter h⟩
  exact List.mem_range.mpr (Nat.mod_lt _ (by norm_num))

theorem five_sumSize (h : Hash) :
    sumSize (calcDistribution h 2 [5, 5]) = 4 := by
  have hj2 : calcInnerPosition h 2 5 < 2 := Nat.mod_lt _ (by norm_num)
  have hj01 : calcInnerPosition h 2 5 = 0 ∨ calcInnerPosition h 2 5 = 1 := by omega
  rcases hj01 with hj | hj <;>
    simp [calcDistribution, bucketCount, sumSize, List.range_succ, List.filter, hj]

theorem outerLoop_five (hs : List Hash) (tables : List InnerTable) :
    outerLoop 2 [5, 5] tables hs = none := by
  cases hs with
  | nil => rfl
  | cons h rest =>
    rw [outerLoop, if_neg (by rw [five_sumSize h]; norm_num [kMemoryRepletionRatio])]
    simp [initInnerTables_of_dup (makeBaskets h 2 [5, 5]) [5, 5] (five_basket_mem h)
      five_five_not_nodup rest]

/-! ## Claim theorems -/

/-- Claim C1: for every finite key sequence `data` — including empty,
single-element and duplicate-containing sequences — and every key `q`,
whenever the build completes (`build data hs = some st` for a hash stream
`hs`), `contains st q` returns `true` if and only if `q` is a member of the
deduplicated set of `data`: no false positives and no false negatives. -/
theorem contains_iff_mem_dedup (data : List Int) (hs : List Hash) (st : OuterTable)
    (hb : build data hs = some st) (q : Int) :
    contains st q = decide (q ∈ data.dedup) := by
  have hdedup : decide (q ∈ data.dedup) = decide (q ∈ data) := by
    simp [List.mem_dedup]
  rw [hdedup]
  obtain ⟨hsize, hsum, hs1, rest1, hinit⟩ := build_spec data hs st hb
  obtain ⟨hlen, hall⟩ := initInnerTables_spec _ _ _ _ hinit
  by_cases hn : st.size = 0
  · have hd0 : data.length = 0 := by rw [← hsize, hn]
    have hdata : data = [] := List.length_eq_zero.mp hd0
    subst hdata
    simp [contains, hn]
  · have hpos0 : 0 < st.size := Nat.pos_of_ne_zero hn
    have hblt : calcInnerPosition st.hash st.size q < st.size := Nat.mod_lt _ hpos0
    have htslen : st.tables.length = st.size := by
      rw [hlen, makeBaskets_length]
    have hblt' : calcInnerPosition st.hash st.size q < st.tables.length := by
      rw [htslen]; exact hblt
    obtain ⟨t, htb⟩ : ∃ t, st.tables[calcInnerPosition st.hash st.size q]? = some t :=
      ⟨_, List.getElem?_eq_getElem hblt'⟩
    obtain ⟨hs2, rest2, hinner⟩ := hall _ _ t (makeBaskets_getElem? _ _ _ _ hblt) htb
    unfold contains
    rw [if_neg hn]
    simp only [htb]
    rw [innerContains_eq_mem _ _ _ _ hinner q]
    simp only [decide_eq_decide]
    rw [mem_basket_iff]
    simp

/-- Witness for C1 at the concrete scenario `K = [1, 2, 3]`: a four-hash
stream of the function `x ↦ x mod p` completes the build, and the query `4`
answers exactly membership in the deduplicated input. -/
theorem contains_iff_mem_dedup_witness :
    build [1, 2, 3] [⟨1, 0⟩, ⟨1, 0⟩, ⟨1, 0⟩, ⟨1, 0⟩] =
      some ⟨3, ⟨1, 0⟩, [⟨1, [some 3], ⟨1, 0⟩⟩, ⟨1, [some 1], ⟨1, 0⟩⟩,
        ⟨1, [some 2], ⟨1, 0⟩⟩]⟩ ∧
    contains ⟨3, ⟨1, 0⟩, [⟨1, [some 3], ⟨1, 0⟩⟩, ⟨1, [some 1], ⟨1, 0⟩⟩,
        ⟨1, [some 2], ⟨1, 0⟩⟩]⟩ 4 = decide ((4 : Int) ∈ ([1, 2, 3] : List Int).dedup) :=
  ⟨by decide, contains_iff_mem_dedup [1, 2, 3] [⟨1, 0⟩, ⟨1, 0⟩, ⟨1, 0⟩, ⟨1, 0⟩] _
    (by decide) 4⟩

/-- Claim C2 (refuted by the code — code bug): the claim states that the
build terminates for every finite input, duplicates being treated as one key.
In the code, two copies of an equal key always receive the same inner
position, so every inner fill attempt on a bucket holding a duplicated key
fails and the retry loop runs forever. For the input `[5, 5]` no finite hash
stream, however long, completes the build. -/
theorem build_duplicate_diverges (hs : List Hash) : build [5, 5] hs = none := by
  have h5 : outerLoop ([5, 5] : List Int).length [5, 5]
      (List.replicate ([5, 5] : List Int).length default) hs = none :=
    outerLoop_five hs _
  unfold build
  rw [h5]

/-- Claim C3 (counterexample): for the negative key `-1` and the hash
function with multiplier 1 and adder 0, the code's hash value is not the
mathematical value `(-1 * 1 + 0) mod 2000000011 = 2000000010`: the implicit
`int → size_t` conversion first wraps `-1` to `2 ^ 64 - 1`. -/
theorem hashApply_ne_spec_counterexample :
    hashApply ⟨1, 0⟩ (-1) ≠ specHashApply ⟨1, 0⟩ (-1) := by
  decide

/-- Claim C3 (amended): the code computes
`((key mod 2 ^ 64) * multiplier + adder) mod 2 ^ 64 mod 2000000011` — the
`size_t` rendition of the specified formula. It agrees with the mathematical
value `(key * multiplier + adder) mod prime` whenever the key is a
non-negative value below `2 ^ 64` and `key * multiplier + adder` does not
overflow 64 bits; and the position in a table of size `s` is always the hash
value modulo `s`. -/
theorem hashApply_amended (k m a : Nat) (hof : k * m + a < 2 ^ 64) :
    hashApply ⟨m, a⟩ (k : Int) = (k * m + a) % kPrimeNumber ∧
    ∀ (h : Hash) (s : Nat) (v : Int), calcInnerPosition h s v = hashApply h v % s := by
  constructor
  · have hts : toSizeT (k : Int) = k % 2 ^ 64 := by
      unfold toSizeT
      rw [show ((2 : Int) ^ 64) = ((2 ^ 64 : Nat) : Int) by push_cast,
        ← Int.natCast_mod, Int.toNat_ofNat]
    have hmod : (k % 2 ^ 64 * m + a) % 2 ^ 64 = k * m + a := by
      have h1 : (k % 2 ^ 64) ≡ k [MOD 2 ^ 64] := Nat.mod_modEq k (2 ^ 64)
      have h2 : (k % 2 ^ 64 * m + a) ≡ (k * m + a) [MOD 2 ^ 64] :=
        (h1.mul_right m).add_right a
      calc (k % 2 ^ 64 * m + a) % 2 ^ 64
          = (k * m + a) % 2 ^ 64 := h2
        _ = k * m + a := Nat.mod_eq_of_lt hof
    show (toSizeT (k : Int) * m + a) % uintSize % kPrimeNumber = (k * m + a) % kPrimeNumber
    rw [hts, uintSize, hmod]
  · intro h s v
    rfl

/-- Witness for the amended C3 at key 3, multiplier 2, adder 5. -/
theorem hashApply_amended_witness :
    hashApply ⟨2, 5⟩ ((3 : Nat) : Int) = (3 * 2 + 5) % kPrimeNumber ∧
    ∀ (h : Hash) (s : Nat) (v : Int), calcInnerPosition h s v = hashApply h v % s :=
  hashApply_amended 3 2 5 (by norm_num)

/-- Claim C4: an inner-table fill attempt over a bucket `data` of `m` keys,
with its freshly sized `m * m`-slot buffer, succeeds if and only if the hash
function maps the bucket's keys to pairwise-distinct positions (it fails
exactly when some position receives count `> 1`); on success every key is
stored at its computed position; and the buffer has exactly `m * m` slots. -/
theorem innerTryFill_spec (h : Hash) (data : List Int) :
    ((innerTryFill h (data.length * data.length) data
        (List.replicate (data.length * data.length) none)).1 = true ↔
      (data.map (calcInnerPosition h (data.length * data.length))).Nodup) ∧
    (innerTryFill h (data.length * data.length) data
        (List.replicate (data.length * data.length) none)).2.length =
      data.length * data.length ∧
    ((innerTryFill h (data.length * data.length) data
        (List.replicate (data.length * data.length) none)).1 = true →
      ∀ v ∈ data,
        (innerTryFill h (data.length * data.length) data
          (List.replicate (data.length * data.length) none)).2[calcInnerPosition h
            (data.length * data.length) v]? = some (some v)) := by
  refine ⟨?_, ?_, ?_⟩
  · by_cases h0 : data.length = 0
    · have hdata : data = [] := List.length_eq_zero.mp h0
      subst hdata
      simp [innerTryFill, calcDistribution]
    · have hpos0 : 0 < data.length * data.length :=
        Nat.mul_pos (Nat.pos_of_ne_zero h0) (Nat.pos_of_ne_zero h0)
      rw [innerTryFill_fst, distribution_all_iff,
        counts_iff_nodup _ _ _ (fun v _ => Nat.mod_lt _ hpos0)]
  · by_cases hf : (innerTryFill h (data.length * data.length) data
        (List.replicate (data.length * data.length) none)).1 = true
    · rw [innerTryFill_snd_of_true _ _ _ _ hf, writeAll_length, List.length_replicate]
    · rw [innerTryFill_snd_of_false _ _ _ _ (Bool.not_eq_true _ ▸ hf),
        List.length_replicate]
  · intro hf v hv
    have h0 : data.length ≠ 0 := by
      intro hc
      rw [List.length_eq_zero.mp hc] at hv
      cases hv
    have hpos0 : 0 < data.length * data.length :=
      Nat.mul_pos (Nat.pos_of_ne_zero h0) (Nat.pos_of_ne_zero h0)
    have hnd : (data.map (calcInnerPosition h (data.length * data.length))).Nodup := by
      rw [innerTryFill_fst] at hf
      exact (counts_iff_nodup _ _ _ (fun u _ => Nat.mod_lt _ hpos0)).mp
        ((distribution_all_iff _ _ _).mp hf)
    rw [innerTryFill_snd_of_true _ _ _ _ hf]
    exact writeAll_getElem?_of_mem _ _ _ _ _ hnd hv
      (by rw [List.length_replicate]; exact Nat.mod_lt _ hpos0)

/-- Witness for C4 on the singleton bucket `[5]`: the attempt succeeds and
stores the key at its position. -/
theorem innerTryFill_spec_witness :
    (innerTryFill ⟨1, 0⟩ 1 [5] (List.replicate 1 none)).2[calcInnerPosition ⟨1, 0⟩
        1 5]? = some (some 5) :=
  (innerTryFill_spec ⟨1, 0⟩ [5]).2.2 (by decide) 5 (by decide)

/-- Claim C5: an outer fill attempt is accepted only when
`Σ count² ≤ kMemoryRepletionRatio * n`, so after every successful build both
the distribution's `sum_size` and the total number of inner-table slots are
at most `4 * n`. -/
theorem build_memory_bound (data : List Int) (hs : List Hash) (st : OuterTable)
    (hb : build data hs = some st) :
    sumSize (calcDistribution st.hash st.size data) ≤
      kMemoryRepletionRatio * data.length ∧
    (st.tables.map (fun t => t.size)).sum ≤ kMemoryRepletionRatio * data.length := by
  obtain ⟨hsize, hsum, -⟩ := build_spec data hs st hb
  refine ⟨hsum, ?_⟩
  rw [build_table_sizes data hs st hb]
  exact hsum

/-- Witness for C5 on the concrete build from `[1, 2]`. -/
theorem build_memory_bound_witness :
    sumSize (calcDistribution ⟨1, 0⟩ 2 [1, 2]) ≤ kMemoryRepletionRatio * 2 ∧
    (([⟨1, [some 2], ⟨1, 0⟩⟩, ⟨1, [some 1], ⟨1, 0⟩⟩] :
        List InnerTable).map (fun t => t.size)).sum ≤ kMemoryRepletionRatio * 2 :=
  build_memory_bound [1, 2] [⟨1, 0⟩, ⟨1, 0⟩, ⟨1, 0⟩]
    ⟨2, ⟨1, 0⟩, [⟨1, [some 2], ⟨1, 0⟩⟩, ⟨1, [some 1], ⟨1, 0⟩⟩]⟩ (by decide)

/-- Claim C6: after a successful build from input `data`, every key of `data`
is held by exactly one (outer bucket, inner slot) pair — the bucket at the
key's outer position and the slot at its inner position there — and no inner
table holds two distinct keys in the same slot. -/
theorem build_unique_slot (data : List Int) (hs : List Hash) (st : OuterTable)
    (hb : build data hs = some st) :
    (∀ k ∈ data, ∃! p : Nat × Nat, slotHolds st p.1 p.2 k) ∧
    ∀ (b s : Nat) (k k' : Int), slotHolds st b s k → slotHolds st b s k' → k = k' := by
  obtain ⟨hsize, hsum, hs1, rest1, hinit⟩ := build_spec data hs st hb
  obtain ⟨hlen, hall⟩ := initInnerTables_spec _ _ _ _ hinit
  have htslen : st.tables.length = st.size := by rw [hlen, makeBaskets_length]
  constructor
  · intro k hk
    have hn0 : 0 < st.size := by
      rw [hsize]
      exact List.length_pos.mpr (List.ne_nil_of_mem hk)
    have hblt : calcInnerPosition st.hash st.size k < st.tables.length := by
      rw [htslen]; exact Nat.mod_lt _ hn0
    obtain ⟨t, htb⟩ : ∃ t, st.tables[calcInnerPosition st.hash st.size k]? = some t :=
      ⟨_, List.getElem?_eq_getElem hblt⟩
    obtain ⟨hs2, rest2, hinner⟩ :=
      hall _ _ t (makeBaskets_getElem? _ _ _ _ (htslen ▸ hblt)) htb
    have hkb : k ∈ data.filter (fun v => calcInnerPosition st.hash st.size v ==
        calcInnerPosition st.hash st.size k) :=
      (mem_basket_iff _ _ _ _ _).mpr ⟨hk, rfl⟩
    refine ⟨(calcInnerPosition st.hash st.size k, calcInnerPosition t.hash t.size k),
      ⟨t, htb, innerInitialize_mem_slot _ _ _ _ hinner k hkb⟩, ?_⟩
    rintro ⟨b', s'⟩ ⟨t', htb', hocc'⟩
    have hb'lt : b' < st.tables.length := by
      by_contra hge
      rw [List.getElem?_eq_none (Nat.le_of_not_lt hge)] at htb'
      cases htb'
    obtain ⟨hs3, rest3, hinner'⟩ :=
      hall b' _ t' (makeBaskets_getElem? _ _ _ _ (htslen ▸ hb'lt)) htb'
    obtain ⟨hkmem', hs'eq⟩ := innerInitialize_occupied _ _ _ _ hinner' s' k hocc'
    obtain ⟨-, hbeq⟩ := (mem_basket_iff st.hash st.size data b' k).mp hkmem'
    subst hbeq
    obtain rfl : t' = t := by
      rw [htb'] at htb
      injection htb
    exact Prod.ext rfl hs'eq.symm
  · rintro b s k k' ⟨t1, ht1, ho1⟩ ⟨t2, ht2, ho2⟩
    obtain rfl : t1 = t2 := by
      rw [ht1] at ht2
      injection ht2
    rw [ho1] at ho2
    injection ho2 with ho3
    injection ho3

/-- Witness for C6: in the table built from `[1, 2]`, the key `1` occupies a
unique (bucket, slot) pair. -/
theorem build_unique_slot_witness :
    ∃! p : Nat × Nat,
      slotHolds ⟨2, ⟨1, 0⟩, [⟨1, [some 2], ⟨1, 0⟩⟩, ⟨1, [some 1], ⟨1, 0⟩⟩]⟩ p.1 p.2 1 :=
  (build_unique_slot [1, 2] [⟨1, 0⟩, ⟨1, 0⟩, ⟨1, 0⟩]
    ⟨2, ⟨1, 0⟩, [⟨1, [some 2], ⟨1, 0⟩⟩, ⟨1, [some 1], ⟨1, 0⟩⟩]⟩ (by decide)).1 1
    (by decide)

/-- Claim C7: an outer fill attempt whose `sum_size` exceeds
`kMemoryRepletionRatio * n` fails immediately: it returns `false`, consumes
no hashes from the stream, and the array of inner tables is exactly as it was
before the attempt. -/
theorem outerTryFill_reject_frame (h : Hash) (n : Nat) (data : List Int)
    (tables : List InnerTable) (hs : List Hash)
    (hgt : kMemoryRepletionRatio * n < sumSize (calcDistribution h n data)) :
    outerTryFill h n data tables hs = some (false, tables, hs) := by
  rw [outerTryFill, if_pos hgt]

/-- Witness for C7: three equal keys in a one-bucket table give
`sum_size = 9 > 4`, and the attempt is rejected leaving the tables intact. -/
theorem outerTryFill_reject_frame_witness :
    outerTryFill ⟨1, 0⟩ 1 [0, 0, 0] [] [] = some (false, [], []) :=
  outerTryFill_reject_frame ⟨1, 0⟩ 1 [0, 0, 0] [] [] (by decide)

/-- Claim C8: querying a table whose size is zero — the outer table built
from empty input, or an inner table for an empty bucket — returns `false`
through the size guard, before any position is computed. -/
theorem contains_zero_size (st : OuterTable) (t : InnerTable) (v : Int)
    (hst : st.size = 0) (ht : t.size = 0) :
    contains st v = false ∧ innerContains t v = false := by
  constructor
  · rw [contains, if_pos hst]
  · rw [innerContains, if_pos ht]

/-- Witness for C8 on concrete zero-size tables. -/
theorem contains_zero_size_witness :
    contains ⟨0, ⟨1, 2⟩, []⟩ 7 = false ∧ innerContains ⟨0, [], ⟨3, 4⟩⟩ 7 = false :=
  contains_zero_size ⟨0, ⟨1, 2⟩, []⟩ ⟨0, [], ⟨3, 4⟩⟩ 7 rfl rfl

/-- Claim C9: a failed inner fill attempt writes nothing: when some
position's count exceeds 1, `TryFillingHashTable` returns `false` before
assigning any slot, and the buffer is exactly as it was before the attempt. -/
theorem innerTryFill_fail_frame (h : Hash) (size : Nat) (data : List Int)
    (buf : List (Option Int))
    (hcol : ∃ num ∈ calcDistribution h size data, 1 < num) :
    innerTryFill h size data buf = (false, buf) := by
  have hfail : (innerTryFill h size data buf).1 = false := by
    rw [innerTryFill_fst, ← Bool.not_eq_true, List.all_eq_true]
    intro hallp
    obtain ⟨num, hmem, hnum⟩ := hcol
    have := hallp num hmem
    simp at this
    omega
  calc innerTryFill h size data buf
      = ((innerTryFill h size data buf).1, (innerTryFill h size data buf).2) := rfl
    _ = (false, buf) := by
        rw [hfail, innerTryFill_snd_of_false h size data buf hfail]

/-- Witness for C9: on the duplicated bucket `[5, 5]` the attempt fails and
the four-slot buffer is returned untouched. -/
theorem innerTryFill_fail_frame_witness :
    innerTryFill ⟨1, 0⟩ 4 [5, 5] (List.replicate 4 none) =
      (false, List.replicate 4 none) :=
  innerTryFill_fail_frame ⟨1, 0⟩ 4 [5, 5] (List.replicate 4 none) (by decide)

/-- Claim C10: for a bucket holding exactly one key the inner table has
exactly one slot and the first fill attempt succeeds for every hash function
drawn — the key's position modulo 1 is 0 and its count is 1 — so the retry
loop consumes exactly one hash and never retries. -/
theorem innerInitialize_singleton (h : Hash) (hs : List Hash) (k : Int) :
    innerInitialize [k] (h :: hs) = some (⟨1, [some k], h⟩, hs) := by
  have hfill : innerTryFill h 1 [k] (List.replicate 1 none) = (true, [some k]) := by
    rw [innerTryFill, if_pos]
    · rw [writeAll]
      simp [calcInnerPosition, Nat.mod_one]
    · simp [calcDistribution, bucketCount, List.range_succ, calcInnerPosition,
        Nat.mod_one, List.filter]
  rw [innerInitialize, innerLoop]
  simp only [List.length_cons, List.length_nil, Nat.zero_add, Nat.mul_one, hfill]
  rfl

end FixedSet
